import Mathlib

/-!
# Heaviest-branch tip selector: a shallow embedding

This file embeds the `mselection` package (the `HeaviestSelector` of the
hornet repository) in Lean 4 and proves the specified properties of it.

Modelling decisions:
* Message identifiers (the opaque `MessageID` / `MapKey` strings) are
  modelled as natural numbers; the selector only uses them as map keys.
* A `bitset.BitSet` is modelled as a `Finset Nat` of its set bit positions:
  `Count` is `Finset.card`, `InPlaceUnion` is union, `InPlaceDifference`
  is set difference, and `bitset.New(i+1).Set(i)` is the singleton `{i}`.
* Go's `trackedMessages` map together with the implicit bit-index
  assignment (`idx = len(trackedMessages)` at insertion) is modelled as
  the insertion-ordered list `trackedMessages` of keys; the position of a
  key in that list is its bit index.  The per-record `refs` bitsets are
  held in a heap `refs : Nat → Finset Nat` addressed by message id, so
  that the in-place bitset mutations performed by `referenceTip` on the
  records shared between the selection working list and the tracked map
  are represented faithfully.
* The `tip *list.Element` pointer of a record is represented by membership
  of the message id in the `tips` list.
* `utils.RandomInsecure(0, n-1)` draws and the context-deadline channel
  are modelled by oracle parameters: streams `Nat → Nat` of random values
  (reduced mod the relevant length) and a stream `Nat → Bool` telling
  whether the deadline has fired by a given loop iteration.
-/

namespace Mselection

/-- The selector state of the Go `HeaviestSelector` struct: the three
configuration integers (the `time.Duration` deadline is replaced by the
deadline oracle of `SelectTips`), the tracked-message keys in insertion
order, the heap of `refs` bitsets addressed by message id, and the tips
list.  Go `int` fields are `Int`. -/
structure HeaviestSelector where
  minHeaviestBranchUnreferencedMessagesThreshold : Int
  maxHeaviestBranchTipsPerCheckpoint : Int
  randomTipsPerCheckpoint : Int
  trackedMessages : List Nat
  refs : Nat → Finset Nat
  tips : List Nat

/-- `GetTrackedMessagesCount` returns the amount of known messages
(the size of the `trackedMessages` map). -/
def GetTrackedMessagesCount (s : HeaviestSelector) : Nat :=
  s.trackedMessages.length

/-- `reset` replaces the tracked-messages map and the tips list by empty
ones; the old bitsets in the heap become garbage and are not touched. -/
def reset (s : HeaviestSelector) : HeaviestSelector :=
  { s with trackedMessages := [], tips := [] }

/-- `New` constructs a selector with the given configuration and resets it. -/
def New (minThreshold maxTips randomTips : Int) : HeaviestSelector :=
  reset
    { minHeaviestBranchUnreferencedMessagesThreshold := minThreshold
      maxHeaviestBranchTipsPerCheckpoint := maxTips
      randomTipsPerCheckpoint := randomTips
      trackedMessages := []
      refs := fun _ => ∅
      tips := [] }

/-- `HeaviestSelector.removeTip`: the Go method takes the result of a map
lookup (`nil` when the parent is not tracked, modelled by `none`) and, when
the item exists and its `tip` list element is non-nil (i.e. the id is in
the tips list), removes that element from the tips list.  Removing an
absent id is a no-op, which also covers the `it.tip == nil` check. -/
def removeTip (tips : List Nat) (item : Option Nat) : List Nat :=
  match item with
  | none => tips
  | some p => tips.erase p

/-- `OnNewSolidMessage` adds a new message (with its two parent ids) to the
selector: duplicates are filtered (returning the zero value of the named
result `trackedMessagesCount`), otherwise the new record gets the next bit
index, its `refs` is its own bit unioned with the `refs` of each tracked
parent, the parents leave the tips list and the new message is appended to
it; the new size of the tracked map is returned. -/
def OnNewSolidMessage (s : HeaviestSelector) (mid p1 p2 : Nat) :
    HeaviestSelector × Nat :=
  if mid ∈ s.trackedMessages then (s, 0)
  else
    let parent1Item : Option Nat :=
      if p1 ∈ s.trackedMessages then some p1 else none
    let parent2Item : Option Nat :=
      if p2 ∈ s.trackedMessages then some p2 else none
    let idx := s.trackedMessages.length
    let newRefs : Finset Nat :=
      ({idx} : Finset Nat)
        ∪ (match parent1Item with | some p => s.refs p | none => ∅)
        ∪ (match parent2Item with | some p => s.refs p | none => ∅)
    let s1 : HeaviestSelector :=
      { s with
        trackedMessages := s.trackedMessages ++ [mid]
        refs := fun m => if m = mid then newRefs else s.refs m
        tips := removeTip (removeTip s.tips parent1Item) parent2Item ++ [mid] }
    (s1, GetTrackedMessagesCount s1)

/-- `ingestAll` feeds a sequence of `(mid, parent1, parent2)` triples to
`OnNewSolidMessage` in order. -/
def ingestAll (s : HeaviestSelector) (seq : List (Nat × Nat × Nat)) :
    HeaviestSelector :=
  seq.foldl (fun s t => (OnNewSolidMessage s t.1 t.2.1 t.2.2).1) s

/-! ## The selection engine -/

/-- `tipsToList` snapshots the current tips into a working collection.  The
Go method builds a map keyed by message id from the tips list; the records
(and, crucially, their `refs` bitsets) are shared, not copied.  We keep the
tips-list order as the iteration order of the working collection. -/
def tipsToList (s : HeaviestSelector) : List Nat :=
  s.tips

/-- Go's `uint(x)` conversion of a (64-bit) `int`. -/
def uintCast (z : Int) : Nat :=
  (z % (2 ^ 64)).toNat

/-- The running maximum of `refs.Count()` over the working list, exactly as
computed by the loop in `selectTip` (starting from `best.count = 0`). -/
def bestCount (msgs : List Nat) (heap : Nat → Finset Nat) : Nat :=
  msgs.foldl (fun acc m => max acc (heap m).card) 0

/-- `trackedMessagesList.referenceTip` removes the tip from the working
list and clears, in the `refs` of every remaining working-list entry, all
bits set in the removed tip's `refs` (`InPlaceDifference`).  The bitsets
live in the shared heap, so the function returns the new working list
together with the updated heap. -/
def referenceTip (msgs : List Nat) (heap : Nat → Finset Nat) (t : Nat) :
    List Nat × (Nat → Finset Nat) :=
  let remaining := msgs.erase t
  (remaining, fun m => if m ∈ remaining then heap m \ heap t else heap m)

/-- `HeaviestSelector.selectTip` picks a tip with the most referenced
messages: it computes the maximal `refs.Count()` over the working list,
collects the ties, and picks one of them with a random draw `r` (reduced
into range); it fails iff the working list is empty (the accumulated tie
list is provably never empty otherwise, but the Go code re-checks, and so
do we). -/
def selectTip (msgs : List Nat) (heap : Nat → Finset Nat) (r : Nat) :
    Option (Nat × Nat) :=
  if msgs = [] then none
  else
    let best := bestCount msgs heap
    let ties := msgs.filter fun m => (heap m).card = best
    if ties = [] then none
    else some (ties.getD (r % ties.length) 0, best)

/-- `trackedMessagesList.randomTip` picks a uniformly random entry of the
working list (the draw `r` reduced into range); fails iff the list is
empty. -/
def randomTip (msgs : List Nat) (r : Nat) : Option Nat :=
  if msgs = [] then none
  else some (msgs.getD (r % msgs.length) 0)

/-- The state local to one `SelectTips` call: the working list and the
(shared) bitset heap, the collected output `tips`, the ghost list of the
contributions (`count`) of the heaviest picks, and the sticky
`deadlineExceeded` flag. -/
structure LoopSt where
  msgs : List Nat
  heap : Nat → Finset Nat
  out : List Nat
  counts : List Nat
  deadlineExceeded : Bool

/-- One committed heaviest pick: remove the tip from the working list,
subtract its `refs` from the remaining entries, append its id to the
output and its contribution to the ghost `counts`. -/
def commitPick (st : LoopSt) (tip count : Nat) (dl : Bool) : LoopSt :=
  { msgs := (referenceTip st.msgs st.heap tip).1
    heap := (referenceTip st.msgs st.heap tip).2
    out := st.out ++ [tip]
    counts := st.counts ++ [count]
    deadlineExceeded := dl }

/-- The heaviest-branch loop of `SelectTips`.  Per iteration `i`: consult
the deadline oracle (the flag is sticky), run `selectTip` with the `i`-th
random draw (breaking on error), break without appending when the output
already holds more than `minRequired` tips and the contribution is below
the threshold or the deadline fired, otherwise commit the pick.  `fuel` is
the remaining number of iterations of
`for i := 0; i < maxHeaviestBranchTipsPerCheckpoint; i++`. -/
def heaviestLoop (minRequired : Int) (thr : Nat) (rand : Nat → Nat)
    (deadlineAt : Nat → Bool) : Nat → Nat → LoopSt → LoopSt
  | 0, _, st => st
  | fuel + 1, i, st =>
    let dl := st.deadlineExceeded || deadlineAt i
    match selectTip st.msgs st.heap (rand i) with
    | none => { st with deadlineExceeded := dl }
    | some (tip, count) =>
      if ((st.out.length : Int) > minRequired) ∧ (count < thr ∨ dl = true) then
        { st with deadlineExceeded := dl }
      else
        heaviestLoop minRequired thr rand deadlineAt fuel (i + 1)
          (commitPick st tip count dl)

/-- The random-padding loop of `SelectTips`: up to
`randomTipsPerCheckpoint` times, draw a random working-list entry (break
when the list is empty), reference it and append it to the output. -/
def randomLoop (rand : Nat → Nat) : Nat → Nat → LoopSt → LoopSt
  | 0, _, st => st
  | fuel + 1, i, st =>
    match randomTip st.msgs (rand i) with
    | none => st
    | some item =>
      randomLoop rand fuel (i + 1)
        { st with
          msgs := (referenceTip st.msgs st.heap item).1
          heap := (referenceTip st.msgs st.heap item).2
          out := st.out ++ [item] }

/-- The heaviest phase of a `SelectTips` call: the heaviest loop started on
the snapshot of the tips list with the selector's bitset heap. -/
def heaviestPhase (s : HeaviestSelector) (minRequired : Int)
    (rand1 : Nat → Nat) (deadlineAt : Nat → Bool) : LoopSt :=
  heaviestLoop minRequired
    (uintCast s.minHeaviestBranchUnreferencedMessagesThreshold)
    rand1 deadlineAt s.maxHeaviestBranchTipsPerCheckpoint.toNat 0
    { msgs := tipsToList s
      heap := s.refs
      out := []
      counts := []
      deadlineExceeded := false }

/-- `SelectTips` up to (but not including) the final reset: returns the
output (`none` for the `ErrNoTipsAvailable` error) together with the
selector as it stands when the loops have finished — its `refs` heap is
the working heap, because the snapshot shares the bitsets with the tracked
records and `referenceTip` mutates them in place. -/
def SelectTipsCore (s : HeaviestSelector) (minRequired : Int)
    (rand1 rand2 : Nat → Nat) (deadlineAt : Nat → Bool) :
    Option (List Nat) × HeaviestSelector :=
  if tipsToList s = [] then (none, s)
  else
    let st1 := heaviestPhase s minRequired rand1 deadlineAt
    if st1.out = [] then (none, { s with refs := st1.heap })
    else
      let st2 := randomLoop rand2 s.randomTipsPerCheckpoint.toNat 0 st1
      (some st2.out, { s with refs := st2.heap })

/-- `SelectTips`: the core call followed, on success only, by the full
reset of the selector. -/
def SelectTips (s : HeaviestSelector) (minRequired : Int)
    (rand1 rand2 : Nat → Nat) (deadlineAt : Nat → Bool) :
    Option (List Nat) × HeaviestSelector :=
  match SelectTipsCore s minRequired rand1 rand2 deadlineAt with
  | (none, s1) => (none, s1)
  | (some out, s1) => (some out, reset s1)

/-! ## Spec-side notions: parents, ancestors, solidification order

The claims speak about the ancestors of a message and about sequences of
ingest calls made in solidification order.  These notions are not part of
the selector's state; they are defined here from an ingest sequence of
`(mid, parent1, parent2)` triples. -/

/-- The parents of a message id `c` according to an ingest sequence: the
two parent ids of the first triple whose message id is `c` (duplicate
triples are ignored by the selector), or none when `c` never appears. -/
def parentsOf (seq : List (Nat × Nat × Nat)) (c : Nat) : Finset Nat :=
  match seq.find? (fun t => t.1 == c) with
  | some t => {t.2.1, t.2.2}
  | none => ∅

/-- `a` is an ancestor of `m`: reachable in one or more steps along the
parent edges of the ingest sequence. -/
def AncRel (seq : List (Nat × Nat × Nat)) (m a : Nat) : Prop :=
  Relation.TransGen (fun x y => y ∈ parentsOf seq x) m a

/-- The ingest sequence is in solidification order: whenever a parent `p`
of the triple at position `i` occurs as a message id at any position at or
after `i`, it also occurs as a message id strictly before `i` (so any
parent that is ever tracked is tracked first). -/
def SolidOrder (seq : List (Nat × Nat × Nat)) : Prop :=
  ∀ i < seq.length,
    ∀ p ∈ [(seq.getD i (0, 0, 0)).2.1, (seq.getD i (0, 0, 0)).2.2],
      p ∈ (seq.drop i).map (fun t => t.1) →
      p ∈ (seq.take i).map fun t => t.1

instance (seq : List (Nat × Nat × Nat)) : Decidable (SolidOrder seq) := by
  unfold SolidOrder
  infer_instance

/-- One step of the tracked-ancestor accumulation, mirroring the spec's
"by construction from parents' refs": processing a fresh triple records,
as the ancestor set of its message id, each tracked parent together with
that parent's ancestors; duplicate triples are skipped.  The first
component is the list of message ids processed so far. -/
def ancStep (st : List Nat × (Nat → Finset Nat)) (t : Nat × Nat × Nat) :
    List Nat × (Nat → Finset Nat) :=
  if t.1 ∈ st.1 then st
  else
    let a : Finset Nat :=
      (if t.2.1 ∈ st.1 then insert t.2.1 (st.2 t.2.1) else ∅)
        ∪ (if t.2.2 ∈ st.1 then insert t.2.2 (st.2 t.2.2) else ∅)
    (st.1 ++ [t.1], fun x => if x = t.1 then a else st.2 x)

/-- The set of tracked ancestors of `m`, accumulated over the ingest
sequence in order.  Under `SolidOrder` this is exactly the set of
ancestors of `m` that are tracked (proved in `mem_trackedAncestors`). -/
def trackedAncestors (seq : List (Nat × Nat × Nat)) (m : Nat) : Finset Nat :=
  (seq.foldl ancStep ([], fun _ => ∅)).2 m

/-- The message ids of an ingest sequence in first-occurrence order: this
is the insertion order of the tracked map (duplicates are ignored). -/
def firstMids (seq : List (Nat × Nat × Nat)) : List Nat :=
  seq.foldl (fun acc t => if t.1 ∈ acc then acc else acc ++ [t.1]) []

/-- The joint invariant of a selector built by ingesting `seq` from a
fresh selector in solidification order, tying the selector state to the
spec-side notions: the tracked keys are the first-occurrence mids; they
are duplicate-free; the ancestor accumulator tracks the same keys;
untracked ids have no recorded ancestors; recorded ancestors are tracked,
never contain the message itself, and coincide with the relational
ancestors (`AncRel`); each `refs` bitset is the image under the bit-index
assignment (position in the tracked list) of the message plus its tracked
ancestors; and the tips list is exactly the tracked messages that are no
parent of a tracked message, in insertion order. -/
structure IngestInv (a b c : Int) (seq : List (Nat × Nat × Nat)) : Prop where
  tracked_eq : (ingestAll (New a b c) seq).trackedMessages = firstMids seq
  ancFst_eq : (seq.foldl ancStep ([], fun _ => ∅)).1 = firstMids seq
  nodup : (firstMids seq).Nodup
  anc_empty : ∀ m, m ∉ firstMids seq → trackedAncestors seq m = ∅
  anc_sub : ∀ m ∈ firstMids seq, ∀ x ∈ trackedAncestors seq m,
    x ∈ firstMids seq
  anc_self : ∀ m ∈ firstMids seq, m ∉ trackedAncestors seq m
  refs_eq : ∀ m ∈ firstMids seq,
    (ingestAll (New a b c) seq).refs m =
      (insert m (trackedAncestors seq m)).image
        (fun x => (firstMids seq).indexOf x)
  tips_eq : (ingestAll (New a b c) seq).tips =
    (firstMids seq).filter
      (fun m => !((firstMids seq).any
        (fun ch => decide (m ∈ parentsOf seq ch))))
  bridge : ∀ m ∈ firstMids seq, ∀ x,
    x ∈ trackedAncestors seq m ↔ (x ∈ firstMids seq ∧ AncRel seq m x)

/-! ## Concrete fixtures

Small selectors built by ingesting short message sequences, used by the
counterexample and witness theorems. -/

/-- Draw stream that always returns 0 (picks the first tie). -/
def zeroDraw : Nat → Nat := fun _ => 0

/-- Deadline oracle that never fires. -/
def noDeadline : Nat → Bool := fun _ => false

/-- A selector tracking the single message 0 (parents 9, 9 untracked). -/
def singleSel : HeaviestSelector :=
  ingestAll (New 0 2 0) [(0, 9, 9)]

/-- The ingest sequence of the chain 0 ← 1 ← 2 (parents 9 untracked). -/
def chainSeq : List (Nat × Nat × Nat) :=
  [(0, 9, 9), (1, 0, 0), (2, 1, 1)]

/-- A selector tracking the chain 0 ← 1 ← 2. -/
def chainSel : HeaviestSelector :=
  ingestAll (New 0 2 0) [(0, 9, 9), (1, 0, 0), (2, 1, 1)]

/-- A selector tracking a fork: root 0 with the two children 1 and 2. -/
def forkSel : HeaviestSelector :=
  ingestAll (New 0 2 0) [(0, 9, 9), (1, 0, 0), (2, 0, 0)]

/-- The initial loop state of a `SelectTips` call on `forkSel`. -/
def forkStart : LoopSt :=
  { msgs := tipsToList forkSel
    heap := forkSel.refs
    out := []
    counts := []
    deadlineExceeded := false }

/-! ## Helper lemmas about the selection loops -/

/-- The heaviest loop only ever appends to the output. -/
theorem heaviestLoop_out_extends (minRequired : Int) (thr : Nat)
    (rand : Nat → Nat) (deadlineAt : Nat → Bool) :
    ∀ fuel i st, ∃ l,
      (heaviestLoop minRequired thr rand deadlineAt fuel i st).out =
        st.out ++ l := by
  intro fuel
  induction fuel with
  | zero => exact fun i st => ⟨[], by simp [heaviestLoop]⟩
  | succ n ih =>
    intro i st
    cases hsel : selectTip st.msgs st.heap (rand i) with
    | none => exact ⟨[], by simp [heaviestLoop, hsel]⟩
    | some tc =>
      obtain ⟨tip, count⟩ := tc
      simp only [heaviestLoop, hsel]
      split
      · exact ⟨[], by simp⟩
      · obtain ⟨l, hl⟩ := ih (i + 1) (commitPick st tip count
          (st.deadlineExceeded || deadlineAt i))
        exact ⟨tip :: l, by rw [hl]; simp [commitPick]⟩

/-- A heaviest-loop run whose final output is empty never committed a
pick: the starting output was already empty and the working list and the
bitset heap are untouched. -/
theorem heaviestLoop_out_nil_frame (minRequired : Int) (thr : Nat)
    (rand : Nat → Nat) (deadlineAt : Nat → Bool) :
    ∀ fuel i st,
      (heaviestLoop minRequired thr rand deadlineAt fuel i st).out = [] →
      st.out = [] ∧
        (heaviestLoop minRequired thr rand deadlineAt fuel i st).heap =
          st.heap ∧
        (heaviestLoop minRequired thr rand deadlineAt fuel i st).msgs =
          st.msgs := by
  intro fuel
  induction fuel with
  | zero => exact fun i st h => ⟨h, rfl, rfl⟩
  | succ n ih =>
    intro i st
    cases hsel : selectTip st.msgs st.heap (rand i) with
    | none =>
      simp only [heaviestLoop, hsel]
      intro h
      simp_all
    | some tc =>
      obtain ⟨tip, count⟩ := tc
      simp only [heaviestLoop, hsel]
      split
      · intro h
        simp_all
      · intro h
        obtain ⟨l, hl⟩ := heaviestLoop_out_extends minRequired thr rand
          deadlineAt n (i + 1) (commitPick st tip count
            (st.deadlineExceeded || deadlineAt i))
        rw [h] at hl
        simp [commitPick] at hl

/-- An in-range default-index lookup is a member of the list. -/
theorem getD_mod_mem (l : List Nat) (r : Nat) (h : l ≠ []) :
    l.getD (r % l.length) 0 ∈ l := by
  have hlt : r % l.length < l.length :=
    Nat.mod_lt _ (List.length_pos.mpr h)
  rw [List.getD_eq_getElem?_getD, List.getElem?_eq_getElem hlt]
  simp only [Option.getD_some]
  exact List.getElem_mem hlt

/-- The accumulator is below the running maximum of `bestCount`. -/
theorem foldl_max_init_le (f : Nat → Nat) :
    ∀ (l : List Nat) (a : Nat), a ≤ l.foldl (fun acc m => max acc (f m)) a := by
  intro l
  induction l with
  | nil => exact fun a => le_refl a
  | cons x xs ih =>
    intro a
    exact le_trans (le_max_left a (f x)) (ih (max a (f x)))

/-- Every list member's value is below the running maximum of `bestCount`. -/
theorem le_foldl_max (f : Nat → Nat) :
    ∀ (l : List Nat) (a m : Nat), m ∈ l →
      f m ≤ l.foldl (fun acc m => max acc (f m)) a := by
  intro l
  induction l with
  | nil => intro a m hm; cases hm
  | cons x xs ih =>
    intro a m hm
    rcases List.mem_cons.mp hm with h | h
    · subst h
      exact le_trans (le_max_right a (f m)) (foldl_max_init_le f xs _)
    · exact ih _ m h

/-- The running maximum of `bestCount` is below any common upper bound. -/
theorem foldl_max_le (f : Nat → Nat) :
    ∀ (l : List Nat) (a c : Nat), a ≤ c → (∀ m ∈ l, f m ≤ c) →
      l.foldl (fun acc m => max acc (f m)) a ≤ c := by
  intro l
  induction l with
  | nil => exact fun a c ha _ => ha
  | cons x xs ih =>
    intro a c ha h
    exact ih _ c (max_le ha (h x (List.mem_cons_self x xs)))
      fun m hm => h m (List.mem_cons_of_mem x hm)

/-- `bestCount` bounds every working-list entry from above. -/
theorem card_le_bestCount {msgs : List Nat} {heap : Nat → Finset Nat}
    {m : Nat} (hm : m ∈ msgs) : (heap m).card ≤ bestCount msgs heap :=
  le_foldl_max (fun m => (heap m).card) msgs 0 m hm

/-- `bestCount` is below any common upper bound of the entries. -/
theorem bestCount_le {msgs : List Nat} {heap : Nat → Finset Nat} {c : Nat}
    (h : ∀ m ∈ msgs, (heap m).card ≤ c) : bestCount msgs heap ≤ c :=
  foldl_max_le (fun m => (heap m).card) msgs 0 c (Nat.zero_le c) h

/-- What a successful `selectTip` returns: a member of the working list
whose bitset cardinality is the returned contribution, which is the
maximal cardinality over the working list. -/
theorem selectTip_spec {msgs : List Nat} {heap : Nat → Finset Nat}
    {r tip count : Nat} (h : selectTip msgs heap r = some (tip, count)) :
    tip ∈ msgs ∧ (heap tip).card = count ∧ count = bestCount msgs heap := by
  unfold selectTip at h
  by_cases h0 : msgs = []
  · rw [if_pos h0] at h
    exact Option.noConfusion h
  · rw [if_neg h0] at h
    simp only [] at h
    by_cases h1 :
        msgs.filter (fun m => decide ((heap m).card = bestCount msgs heap)) = []
    · rw [if_pos h1] at h
      exact Option.noConfusion h
    · rw [if_neg h1] at h
      simp only [Option.some.injEq, Prod.mk.injEq] at h
      obtain ⟨ht, hc⟩ := h
      subst hc
      have hmem := getD_mod_mem _ r h1
      rw [ht] at hmem
      have := List.of_mem_filter hmem
      exact ⟨List.mem_of_mem_filter hmem, of_decide_eq_true this, rfl⟩

/-- A successful `randomTip` returns a member of the working list. -/
theorem randomTip_mem {msgs : List Nat} {r item : Nat}
    (h : randomTip msgs r = some item) : item ∈ msgs := by
  unfold randomTip at h
  by_cases h0 : msgs = []
  · rw [if_pos h0] at h
    exact Option.noConfusion h
  · rw [if_neg h0] at h
    simp only [Option.some.injEq] at h
    rw [← h]
    exact getD_mod_mem _ r h0

/-- Heaviest-loop invariant for C6: if the ghost contribution list is
non-increasing and bounds every working-list entry from above (when it is
non-empty), the final contribution list is non-increasing. -/
theorem heaviestLoop_counts_chain (minRequired : Int) (thr : Nat)
    (rand : Nat → Nat) (deadlineAt : Nat → Bool) :
    ∀ fuel i st,
      List.Chain' (fun a b => b ≤ a) st.counts →
      (∀ c, st.counts.getLast? = some c →
        ∀ m ∈ st.msgs, (st.heap m).card ≤ c) →
      List.Chain' (fun a b => b ≤ a)
        (heaviestLoop minRequired thr rand deadlineAt fuel i st).counts := by
  intro fuel
  induction fuel with
  | zero => exact fun i st hch _ => hch
  | succ n ih =>
    intro i st hch hbd
    cases hsel : selectTip st.msgs st.heap (rand i) with
    | none => simpa [heaviestLoop, hsel] using hch
    | some tc =>
      obtain ⟨tip, count⟩ := tc
      simp only [heaviestLoop, hsel]
      split
      · exact hch
      · obtain ⟨htm, hcard, hbest⟩ := selectTip_spec hsel
        apply ih
        · show List.Chain' (fun a b => b ≤ a) (st.counts ++ [count])
          rw [List.chain'_append]
          refine ⟨hch, List.chain'_singleton count, ?_⟩
          intro x hx y hy
          simp only [List.head?_cons, Option.mem_def, Option.some.injEq] at hy
          subst hy
          rw [hbest]
          exact bestCount_le (hbd x hx)
        · show ∀ c, (st.counts ++ [count]).getLast? = some c →
            ∀ m ∈ (commitPick st tip count _).msgs,
              ((commitPick st tip count _).heap m).card ≤ c
          intro c hc m hm
          rw [List.getLast?_concat] at hc
          obtain rfl : count = c := Option.some.injEq .. ▸ hc
          simp only [commitPick, referenceTip] at hm ⊢
          rw [if_pos hm]
          calc (st.heap m \ st.heap tip).card
              ≤ (st.heap m).card := Finset.card_le_card Finset.sdiff_subset
            _ ≤ bestCount st.msgs st.heap :=
                card_le_bestCount (List.mem_of_mem_erase hm)
            _ = count := hbest.symm

/-- Heaviest-loop invariant for C7 and C10: the working list only loses
elements, and output elements come from the initial output or the initial
working list. -/
theorem heaviestLoop_mem (minRequired : Int) (thr : Nat)
    (rand : Nat → Nat) (deadlineAt : Nat → Bool) :
    ∀ fuel i st,
      (∀ x ∈ (heaviestLoop minRequired thr rand deadlineAt fuel i st).msgs,
        x ∈ st.msgs) ∧
      (∀ x ∈ (heaviestLoop minRequired thr rand deadlineAt fuel i st).out,
        x ∈ st.out ∨ x ∈ st.msgs) := by
  intro fuel
  induction fuel with
  | zero => exact fun i st => ⟨fun x hx => hx, fun x hx => Or.inl hx⟩
  | succ n ih =>
    intro i st
    cases hsel : selectTip st.msgs st.heap (rand i) with
    | none =>
      simp only [heaviestLoop, hsel]
      exact ⟨fun x hx => hx, fun x hx => Or.inl hx⟩
    | some tc =>
      obtain ⟨tip, count⟩ := tc
      simp only [heaviestLoop, hsel]
      split
      · exact ⟨fun x hx => hx, fun x hx => Or.inl hx⟩
      · obtain ⟨ihm, iho⟩ := ih (i + 1) (commitPick st tip count
          (st.deadlineExceeded || deadlineAt i))
        constructor
        · intro x hx
          have := ihm x hx
          simp only [commitPick, referenceTip] at this
          exact List.mem_of_mem_erase this
        · intro x hx
          rcases iho x hx with h | h
          · simp only [commitPick] at h
            rcases List.mem_append.mp h with h | h
            · exact Or.inl h
            · simp only [List.mem_singleton] at h
              subst h
              exact Or.inr (selectTip_spec hsel).1
          · simp only [commitPick, referenceTip] at h
            exact Or.inr (List.mem_of_mem_erase h)

/-- The heaviest loop adds at most `fuel` elements to the output. -/
theorem heaviestLoop_out_length (minRequired : Int) (thr : Nat)
    (rand : Nat → Nat) (deadlineAt : Nat → Bool) :
    ∀ fuel i st,
      (heaviestLoop minRequired thr rand deadlineAt fuel i st).out.length ≤
        st.out.length + fuel := by
  intro fuel
  induction fuel with
  | zero => exact fun i st => Nat.le_refl _
  | succ n ih =>
    intro i st
    cases hsel : selectTip st.msgs st.heap (rand i) with
    | none =>
      simp only [heaviestLoop, hsel]
      exact Nat.le_add_right _ _
    | some tc =>
      obtain ⟨tip, count⟩ := tc
      simp only [heaviestLoop, hsel]
      split
      · exact Nat.le_add_right _ _
      · have := ih (i + 1) (commitPick st tip count
          (st.deadlineExceeded || deadlineAt i))
        have hlen : (commitPick st tip count
            (st.deadlineExceeded || deadlineAt i)).out.length =
            st.out.length + 1 := by
          simp [commitPick]
        omega

/-- Heaviest-loop invariant for C10: no-duplicate working list and output,
and disjointness of the two, are preserved. -/
theorem heaviestLoop_nodup (minRequired : Int) (thr : Nat)
    (rand : Nat → Nat) (deadlineAt : Nat → Bool) :
    ∀ fuel i st, st.msgs.Nodup → st.out.Nodup →
      (∀ x ∈ st.out, x ∉ st.msgs) →
      (heaviestLoop minRequired thr rand deadlineAt fuel i st).msgs.Nodup ∧
      (heaviestLoop minRequired thr rand deadlineAt fuel i st).out.Nodup ∧
      (∀ x ∈ (heaviestLoop minRequired thr rand deadlineAt fuel i st).out,
        x ∉ (heaviestLoop minRequired thr rand deadlineAt fuel i st).msgs) := by
  intro fuel
  induction fuel with
  | zero => exact fun i st h1 h2 h3 => ⟨h1, h2, h3⟩
  | succ n ih =>
    intro i st h1 h2 h3
    cases hsel : selectTip st.msgs st.heap (rand i) with
    | none =>
      simp only [heaviestLoop, hsel]
      exact ⟨h1, h2, h3⟩
    | some tc =>
      obtain ⟨tip, count⟩ := tc
      simp only [heaviestLoop, hsel]
      split
      · exact ⟨h1, h2, h3⟩
      · apply ih
        · show (st.msgs.erase tip).Nodup
          exact h1.erase tip
        · show (st.out ++ [tip]).Nodup
          rw [List.nodup_append]
          refine ⟨h2, List.nodup_singleton tip, ?_⟩
          intro x hx
          simp only [List.mem_singleton]
          intro hxt
          subst hxt
          exact h3 x hx (selectTip_spec hsel).1
        · show ∀ x ∈ st.out ++ [tip], x ∉ st.msgs.erase tip
          intro x hx hx2
          rcases List.mem_append.mp hx with h | h
          · exact h3 x h (List.mem_of_mem_erase hx2)
          · simp only [List.mem_singleton] at h
            subst h
            exact (h1.mem_erase_iff.mp hx2).1 rfl

/-- The random loop only ever appends to the output. -/
theorem randomLoop_out_extends (rand : Nat → Nat) :
    ∀ fuel i st, ∃ l, (randomLoop rand fuel i st).out = st.out ++ l := by
  intro fuel
  induction fuel with
  | zero => exact fun i st => ⟨[], by simp [randomLoop]⟩
  | succ n ih =>
    intro i st
    cases hsel : randomTip st.msgs (rand i) with
    | none => exact ⟨[], by simp [randomLoop, hsel]⟩
    | some item =>
      simp only [randomLoop, hsel]
      obtain ⟨l, hl⟩ := ih (i + 1) _
      exact ⟨item :: l, by rw [hl]; simp⟩

/-- Random-loop analogue of `heaviestLoop_mem`. -/
theorem randomLoop_mem (rand : Nat → Nat) :
    ∀ fuel i st,
      (∀ x ∈ (randomLoop rand fuel i st).msgs, x ∈ st.msgs) ∧
      (∀ x ∈ (randomLoop rand fuel i st).out, x ∈ st.out ∨ x ∈ st.msgs) := by
  intro fuel
  induction fuel with
  | zero => exact fun i st => ⟨fun x hx => hx, fun x hx => Or.inl hx⟩
  | succ n ih =>
    intro i st
    cases hsel : randomTip st.msgs (rand i) with
    | none =>
      simp only [randomLoop, hsel]
      exact ⟨fun x hx => hx, fun x hx => Or.inl hx⟩
    | some item =>
      simp only [randomLoop, hsel]
      obtain ⟨ihm, iho⟩ := ih (i + 1) _
      constructor
      · intro x hx
        have := ihm x hx
        simp only [referenceTip] at this
        exact List.mem_of_mem_erase this
      · intro x hx
        rcases iho x hx with h | h
        · simp only [] at h
          rcases List.mem_append.mp h with h | h
          · exact Or.inl h
          · simp only [List.mem_singleton] at h
            subst h
            exact Or.inr (randomTip_mem hsel)
        · simp only [referenceTip] at h
          exact Or.inr (List.mem_of_mem_erase h)

/-- The random loop adds at most `fuel` elements to the output. -/
theorem randomLoop_out_length (rand : Nat → Nat) :
    ∀ fuel i st,
      (randomLoop rand fuel i st).out.length ≤ st.out.length + fuel := by
  intro fuel
  induction fuel with
  | zero => exact fun i st => Nat.le_refl _
  | succ n ih =>
    intro i st
    cases hsel : randomTip st.msgs (rand i) with
    | none =>
      simp only [randomLoop, hsel]
      exact Nat.le_add_right _ _
    | some item =>
      simp only [randomLoop, hsel]
      have := ih (i + 1)
        { st with
          msgs := (referenceTip st.msgs st.heap item).1
          heap := (referenceTip st.msgs st.heap item).2
          out := st.out ++ [item] }
      simp only [List.length_append, List.length_singleton] at this
      omega

/-- Random-loop analogue of `heaviestLoop_nodup`. -/
theorem randomLoop_nodup (rand : Nat → Nat) :
    ∀ fuel i st, st.msgs.Nodup → st.out.Nodup →
      (∀ x ∈ st.out, x ∉ st.msgs) →
      (randomLoop rand fuel i st).msgs.Nodup ∧
      (randomLoop rand fuel i st).out.Nodup ∧
      (∀ x ∈ (randomLoop rand fuel i st).out,
        x ∉ (randomLoop rand fuel i st).msgs) := by
  intro fuel
  induction fuel with
  | zero => exact fun i st h1 h2 h3 => ⟨h1, h2, h3⟩
  | succ n ih =>
    intro i st h1 h2 h3
    cases hsel : randomTip st.msgs (rand i) with
    | none =>
      simp only [randomLoop, hsel]
      exact ⟨h1, h2, h3⟩
    | some item =>
      simp only [randomLoop, hsel]
      apply ih
      · show (st.msgs.erase item).Nodup
        exact h1.erase item
      · show (st.out ++ [item]).Nodup
        rw [List.nodup_append]
        refine ⟨h2, List.nodup_singleton item, ?_⟩
        intro x hx
        simp only [List.mem_singleton]
        intro hxt
        subst hxt
        exact h3 x hx (randomTip_mem hsel)
      · show ∀ x ∈ st.out ++ [item], x ∉ st.msgs.erase item
        intro x hx hx2
        rcases List.mem_append.mp hx with h | h
        · exact h3 x h (List.mem_of_mem_erase hx2)
        · simp only [List.mem_singleton] at h
          subst h
          exact (h1.mem_erase_iff.mp hx2).1 rfl

/-- Inversion of a successful `SelectTips` call: the snapshot was
non-empty, the heaviest phase chose at least one tip, and the output is
that of the random loop run after the heaviest phase. -/
theorem SelectTips_success_inv (s : HeaviestSelector) (minRequired : Int)
    (rand1 rand2 : Nat → Nat) (deadlineAt : Nat → Bool) (out : List Nat)
    (h : (SelectTips s minRequired rand1 rand2 deadlineAt).1 = some out) :
    tipsToList s ≠ [] ∧
      (heaviestPhase s minRequired rand1 deadlineAt).out ≠ [] ∧
      out = (randomLoop rand2 s.randomTipsPerCheckpoint.toNat 0
        (heaviestPhase s minRequired rand1 deadlineAt)).out := by
  unfold SelectTips SelectTipsCore at h
  by_cases hT : tipsToList s = []
  · rw [if_pos hT] at h
    exact Option.noConfusion h
  · rw [if_neg hT] at h
    simp only [] at h
    by_cases hO : (heaviestPhase s minRequired rand1 deadlineAt).out = []
    · rw [if_pos hO] at h
      exact Option.noConfusion h
    · rw [if_neg hO] at h
      simp only [Option.some.injEq] at h
      exact ⟨hT, hO, h.symm⟩

/-! ## Claim C1: duplicate ingest -/

/-- C1, counterexample.  The claim says a duplicate ingest returns the
current size of the tracked map; but `OnNewSolidMessage` returns its named
result `trackedMessagesCount` unassigned (a bare `return`) on the
duplicate path, i.e. 0: re-ingesting message 0 into a selector of size 1
returns 0, not 1. -/
theorem c1_dup_returns_zero_not_size :
    0 ∈ singleSel.trackedMessages ∧
      GetTrackedMessagesCount singleSel = 1 ∧
      (OnNewSolidMessage singleSel 0 9 9).2 ≠ GetTrackedMessagesCount singleSel := by
  refine ⟨by decide, by decide, by decide⟩

/-- C1, amended: for every MID that is already tracked, `OnNewSolidMessage`
with that MID is a no-op on the selector state (so `tracked_count()` is
unchanged) and returns 0 (the zero value of the named result), not the
current size of the tracked map. -/
theorem c1_dup_ingest_noop (s : HeaviestSelector) (mid p1 p2 : Nat)
    (h : mid ∈ s.trackedMessages) :
    OnNewSolidMessage s mid p1 p2 = (s, 0) ∧
      GetTrackedMessagesCount (OnNewSolidMessage s mid p1 p2).1 =
        GetTrackedMessagesCount s := by
  have he : OnNewSolidMessage s mid p1 p2 = (s, 0) := by
    unfold OnNewSolidMessage
    rw [if_pos h]
  exact ⟨he, by rw [he]⟩

/-- C1, witness: the amended theorem applied to the tracked message 0 of
`singleSel`. -/
theorem c1_dup_ingest_noop_witness :
    OnNewSolidMessage singleSel 0 9 9 = (singleSel, 0) ∧
      GetTrackedMessagesCount (OnNewSolidMessage singleSel 0 9 9).1 =
        GetTrackedMessagesCount singleSel :=
  c1_dup_ingest_noop singleSel 0 9 9 (by decide)

/-! ## Claim C2: what selection does and does not mutate -/

/-- C2, counterexample.  The claim says the snapshot mutates only its own
working copies of the bitsets; but `tipsToList` shares the records, so the
in-place set differences of `referenceTip` hit the bitsets stored inside
the tracked records: running the selection loops of `SelectTips` on
`forkSel` (before the final reset) changes the `refs` bitset of the
tracked message 2 from {0, 2} to {2}. -/
theorem c2_selection_mutates_shared_bitsets :
    2 ∈ forkSel.trackedMessages ∧
      forkSel.refs 2 = ({0, 2} : Finset Nat) ∧
      (SelectTipsCore forkSel 0 zeroDraw zeroDraw noDeadline).2.refs 2 ≠
        forkSel.refs 2 := by
  refine ⟨by decide, by decide, by decide⟩

/-- C2, amended: the selection procedure (everything `SelectTips` does up
to the final reset) never changes the tracked map's key set or the tips
list; the `refs` bitsets, however, are shared between the snapshot and the
tracked records and are mutated in place by the set differences (the
mutated records are discarded by the immediate reset on success, and on
failure no set difference has run — see C4). -/
theorem c2_selection_preserves_tracked_and_tips (s : HeaviestSelector)
    (minRequired : Int) (rand1 rand2 : Nat → Nat) (deadlineAt : Nat → Bool) :
    (SelectTipsCore s minRequired rand1 rand2 deadlineAt).2.trackedMessages =
        s.trackedMessages ∧
      (SelectTipsCore s minRequired rand1 rand2 deadlineAt).2.tips = s.tips := by
  unfold SelectTipsCore
  split
  · exact ⟨rfl, rfl⟩
  · simp only []
    split
    · exact ⟨rfl, rfl⟩
    · exact ⟨rfl, rfl⟩

/-! ## Claim C4: the NoTipsAvailable error -/

/-- C4: `SelectTips` returns the `ErrNoTipsAvailable` error (`none`)
exactly when the tip set is empty at call time or the heaviest phase on
the snapshot selected no tip, and on every such failure the selector
(tracked map, tips list and all `refs` bitsets) is returned exactly as it
was before the call. -/
theorem c4_no_tips_error (s : HeaviestSelector) (minRequired : Int)
    (rand1 rand2 : Nat → Nat) (deadlineAt : Nat → Bool) :
    ((SelectTips s minRequired rand1 rand2 deadlineAt).1 = none ↔
      (s.tips = [] ∨ (heaviestPhase s minRequired rand1 deadlineAt).out = [])) ∧
    ((SelectTips s minRequired rand1 rand2 deadlineAt).1 = none →
      (SelectTips s minRequired rand1 rand2 deadlineAt).2 = s) := by
  unfold SelectTips SelectTipsCore
  by_cases hT : tipsToList s = []
  · rw [if_pos hT]
    exact ⟨⟨fun _ => Or.inl hT, fun _ => rfl⟩, fun _ => rfl⟩
  · rw [if_neg hT]
    simp only []
    by_cases hO : (heaviestPhase s minRequired rand1 deadlineAt).out = []
    · rw [if_pos hO]
      have hfr := heaviestLoop_out_nil_frame minRequired
        (uintCast s.minHeaviestBranchUnreferencedMessagesThreshold) rand1
        deadlineAt s.maxHeaviestBranchTipsPerCheckpoint.toNat 0
        { msgs := tipsToList s
          heap := s.refs
          out := []
          counts := []
          deadlineExceeded := false } hO
      have hheap : (heaviestPhase s minRequired rand1 deadlineAt).heap =
          s.refs := hfr.2.1
      constructor
      · exact ⟨fun _ => Or.inr hO, fun _ => rfl⟩
      · intro _
        show ({ s with refs := _ } : HeaviestSelector) = s
        rw [hheap]

    · rw [if_neg hO]
      refine ⟨⟨fun h => absurd h (by simp), fun h => ?_⟩, fun h => absurd h (by simp)⟩
      rcases h with h | h
      · exact absurd (show tipsToList s = [] from h) hT
      · exact absurd h hO

/-! ## Claim C5: the heaviest-loop iteration -/

/-- C5: in an iteration of the heaviest loop in which `selectTip` chose
the tip `tip` with contribution `count`, the loop breaks without appending
`tip` if and only if the output already contains more than `minRequired`
tips and (`count` is below the threshold or the deadline has fired);
otherwise `tip` is appended to the output, removed from the working list,
and its `refs` are subtracted from all remaining entries (`commitPick`
via `referenceTip`), and the loop continues. -/
theorem c5_heaviest_iteration (minRequired : Int) (thr : Nat)
    (rand : Nat → Nat) (deadlineAt : Nat → Bool) (fuel i : Nat) (st : LoopSt)
    (tip count : Nat)
    (h : selectTip st.msgs st.heap (rand i) = some (tip, count)) :
    (((st.out.length : Int) > minRequired ∧
        (count < thr ∨ (st.deadlineExceeded || deadlineAt i) = true)) →
      heaviestLoop minRequired thr rand deadlineAt (fuel + 1) i st =
        { st with deadlineExceeded := st.deadlineExceeded || deadlineAt i }) ∧
    (¬ ((st.out.length : Int) > minRequired ∧
        (count < thr ∨ (st.deadlineExceeded || deadlineAt i) = true)) →
      heaviestLoop minRequired thr rand deadlineAt (fuel + 1) i st =
        heaviestLoop minRequired thr rand deadlineAt fuel (i + 1)
          (commitPick st tip count (st.deadlineExceeded || deadlineAt i))) := by
  constructor
  · intro hg
    simp only [heaviestLoop, h]
    rw [if_pos hg]
  · intro hg
    simp only [heaviestLoop, h]
    rw [if_neg hg]

/-- C5, witness: the first iteration on `forkSel`'s working list: both
tips tie at contribution 2, the draw picks tip 1, the output is still
empty so the break condition is false, and the pick is committed. -/
theorem c5_heaviest_iteration_witness :
    selectTip forkStart.msgs forkStart.heap (zeroDraw 0) = some (1, 2) ∧
      heaviestLoop 0 0 zeroDraw noDeadline 2 0 forkStart =
        heaviestLoop 0 0 zeroDraw noDeadline 1 1
          (commitPick forkStart 1 2
            (forkStart.deadlineExceeded || noDeadline 0)) := by
  have h : selectTip forkStart.msgs forkStart.heap (zeroDraw 0) =
      some (1, 2) := by decide
  refine ⟨h, ?_⟩
  exact (c5_heaviest_iteration 0 0 zeroDraw noDeadline 1 0 forkStart 1 2 h).2
    (by decide)

/-! ## Claim C8: the reset after success -/

/-- C8: after every successful `SelectTips` call the selector is fully
reset: `GetTrackedMessagesCount` returns 0 (the tracked map is empty) and
the tips list is empty. -/
theorem c8_success_resets (s : HeaviestSelector) (minRequired : Int)
    (rand1 rand2 : Nat → Nat) (deadlineAt : Nat → Bool) (out : List Nat)
    (h : (SelectTips s minRequired rand1 rand2 deadlineAt).1 = some out) :
    GetTrackedMessagesCount
        (SelectTips s minRequired rand1 rand2 deadlineAt).2 = 0 ∧
      (SelectTips s minRequired rand1 rand2 deadlineAt).2.trackedMessages
          = [] ∧
      (SelectTips s minRequired rand1 rand2 deadlineAt).2.tips = [] := by
  rcases hc : SelectTipsCore s minRequired rand1 rand2 deadlineAt with ⟨o, s1⟩
  cases o with
  | none =>
    have hs : SelectTips s minRequired rand1 rand2 deadlineAt = (none, s1) := by
      unfold SelectTips
      rw [hc]
    rw [hs] at h
    exact Option.noConfusion h
  | some l =>
    have hs : SelectTips s minRequired rand1 rand2 deadlineAt =
        (some l, reset s1) := by
      unfold SelectTips
      rw [hc]
    rw [hs]
    exact ⟨rfl, rfl, rfl⟩

/-- C8, witness: selecting from the chain selector succeeds with output
[2] and leaves an empty selector. -/
theorem c8_success_resets_witness :
    (SelectTips chainSel 0 zeroDraw zeroDraw noDeadline).1 = some [2] ∧
      GetTrackedMessagesCount
          (SelectTips chainSel 0 zeroDraw zeroDraw noDeadline).2 = 0 ∧
      (SelectTips chainSel 0 zeroDraw zeroDraw noDeadline).2.trackedMessages
          = [] ∧
      (SelectTips chainSel 0 zeroDraw zeroDraw noDeadline).2.tips = [] := by
  have h : (SelectTips chainSel 0 zeroDraw zeroDraw noDeadline).1 =
      some [2] := by decide
  exact ⟨h, c8_success_resets chainSel 0 zeroDraw zeroDraw noDeadline [2] h⟩

/-! ## Claim C6: non-increasing heaviest contributions -/

/-- C6: for every `SelectTips` call the sequence of contributions of the
heaviest-branch picks (the ghost `counts` transcript of the heaviest
phase) is non-increasing, because each pick maximises the bitset
cardinality over the working list thinned by the set differences of the
earlier picks. -/
theorem c6_contributions_nonincreasing (s : HeaviestSelector)
    (minRequired : Int) (rand1 : Nat → Nat) (deadlineAt : Nat → Bool) :
    List.Chain' (fun a b => b ≤ a)
      (heaviestPhase s minRequired rand1 deadlineAt).counts := by
  unfold heaviestPhase
  apply heaviestLoop_counts_chain
  · exact List.chain'_nil
  · intro c hc
    exact absurd hc (by simp)

/-! ## Claim C7: shape of a successful output -/

/-- C7: on every successful `SelectTips` call, the returned value is a
non-empty sequence of MIDs all drawn from the tip set snapshotted at call
time, of length at most `maxHeaviestBranchTipsPerCheckpoint` plus
`randomTipsPerCheckpoint`. -/
theorem c7_success_output (s : HeaviestSelector) (minRequired : Int)
    (rand1 rand2 : Nat → Nat) (deadlineAt : Nat → Bool) (out : List Nat)
    (h : (SelectTips s minRequired rand1 rand2 deadlineAt).1 = some out) :
    out ≠ [] ∧
      out.length ≤ s.maxHeaviestBranchTipsPerCheckpoint.toNat +
        s.randomTipsPerCheckpoint.toNat ∧
      ∀ m ∈ out, m ∈ s.tips := by
  obtain ⟨hT, hO, hout⟩ :=
    SelectTips_success_inv s minRequired rand1 rand2 deadlineAt out h
  have hphase : heaviestPhase s minRequired rand1 deadlineAt =
      heaviestLoop minRequired
        (uintCast s.minHeaviestBranchUnreferencedMessagesThreshold)
        rand1 deadlineAt s.maxHeaviestBranchTipsPerCheckpoint.toNat 0
        { msgs := tipsToList s
          heap := s.refs
          out := []
          counts := []
          deadlineExceeded := false } := rfl
  refine ⟨?_, ?_, ?_⟩
  · obtain ⟨l, hl⟩ := randomLoop_out_extends rand2
      s.randomTipsPerCheckpoint.toNat 0
      (heaviestPhase s minRequired rand1 deadlineAt)
    rw [hout, hl]
    intro hnil
    exact hO (List.append_eq_nil.mp hnil).1
  · have h1 := heaviestLoop_out_length minRequired
      (uintCast s.minHeaviestBranchUnreferencedMessagesThreshold)
      rand1 deadlineAt s.maxHeaviestBranchTipsPerCheckpoint.toNat 0
      { msgs := tipsToList s
        heap := s.refs
        out := []
        counts := []
        deadlineExceeded := false }
    rw [← hphase] at h1
    have h2 := randomLoop_out_length rand2 s.randomTipsPerCheckpoint.toNat 0
      (heaviestPhase s minRequired rand1 deadlineAt)
    rw [hout]
    simp only [List.length_nil] at h1
    omega
  · intro m hm
    rw [hout] at hm
    have hmem1 := heaviestLoop_mem minRequired
      (uintCast s.minHeaviestBranchUnreferencedMessagesThreshold)
      rand1 deadlineAt s.maxHeaviestBranchTipsPerCheckpoint.toNat 0
      { msgs := tipsToList s
        heap := s.refs
        out := []
        counts := []
        deadlineExceeded := false }
    rw [← hphase] at hmem1
    rcases (randomLoop_mem rand2 s.randomTipsPerCheckpoint.toNat 0
        (heaviestPhase s minRequired rand1 deadlineAt)).2 m hm with h1 | h1
    · rcases hmem1.2 m h1 with h2 | h2
      · exact absurd h2 (List.not_mem_nil m)
      · exact h2
    · exact hmem1.1 m h1

/-- C7, witness: selecting from `forkSel` (two tips, thresholds 0, at most
2 heaviest and 0 random tips) returns [1, 2]: non-empty, within the
length bound, and both MIDs are tips of the snapshot. -/
theorem c7_success_output_witness :
    (SelectTips forkSel 0 zeroDraw zeroDraw noDeadline).1 = some [1, 2] ∧
      ([1, 2] : List Nat) ≠ [] ∧
      ([1, 2] : List Nat).length ≤
        forkSel.maxHeaviestBranchTipsPerCheckpoint.toNat +
          forkSel.randomTipsPerCheckpoint.toNat ∧
      1 ∈ forkSel.tips := by
  have h : (SelectTips forkSel 0 zeroDraw zeroDraw noDeadline).1 =
      some [1, 2] := by decide
  have hc := c7_success_output forkSel 0 zeroDraw zeroDraw noDeadline [1, 2] h
  exact ⟨h, hc.1, hc.2.1, hc.2.2 1 (by decide)⟩

/-! ## Claim C10: pairwise distinct output -/

/-- C10: on every successful `SelectTips` call on a selector whose tips
list has no duplicates, the returned MIDs are pairwise distinct: every
pick (heaviest or random) is removed from the working list before any
later pick. -/
theorem c10_output_pairwise_distinct (s : HeaviestSelector)
    (minRequired : Int) (rand1 rand2 : Nat → Nat) (deadlineAt : Nat → Bool)
    (out : List Nat) (hnd : s.tips.Nodup)
    (h : (SelectTips s minRequired rand1 rand2 deadlineAt).1 = some out) :
    out.Nodup := by
  obtain ⟨hT, hO, hout⟩ :=
    SelectTips_success_inv s minRequired rand1 rand2 deadlineAt out h
  have hphase : heaviestPhase s minRequired rand1 deadlineAt =
      heaviestLoop minRequired
        (uintCast s.minHeaviestBranchUnreferencedMessagesThreshold)
        rand1 deadlineAt s.maxHeaviestBranchTipsPerCheckpoint.toNat 0
        { msgs := tipsToList s
          heap := s.refs
          out := []
          counts := []
          deadlineExceeded := false } := rfl
  have h1 := heaviestLoop_nodup minRequired
    (uintCast s.minHeaviestBranchUnreferencedMessagesThreshold)
    rand1 deadlineAt s.maxHeaviestBranchTipsPerCheckpoint.toNat 0
    { msgs := tipsToList s
      heap := s.refs
      out := []
      counts := []
      deadlineExceeded := false }
    hnd List.nodup_nil (by simp)
  rw [← hphase] at h1
  have h2 := randomLoop_nodup rand2 s.randomTipsPerCheckpoint.toNat 0
    (heaviestPhase s minRequired rand1 deadlineAt) h1.1 h1.2.1 h1.2.2
  rw [hout]
  exact h2.2.1

/-- C10, witness: the successful `forkSel` selection returns the
duplicate-free list [1, 2]. -/
theorem c10_output_pairwise_distinct_witness :
    forkSel.tips.Nodup ∧
      (SelectTips forkSel 0 zeroDraw zeroDraw noDeadline).1 = some [1, 2] ∧
      ([1, 2] : List Nat).Nodup := by
  have h : (SelectTips forkSel 0 zeroDraw zeroDraw noDeadline).1 =
      some [1, 2] := by decide
  exact ⟨by decide, h,
    c10_output_pairwise_distinct forkSel 0 zeroDraw zeroDraw noDeadline
      [1, 2] (by decide) h⟩

/-! ## Helper lemmas about ingest sequences -/

/-- Unfolding `ingestAll` on the last sequence element. -/
theorem ingestAll_append (s : HeaviestSelector) (l : List (Nat × Nat × Nat))
    (t : Nat × Nat × Nat) :
    ingestAll s (l ++ [t]) =
      (OnNewSolidMessage (ingestAll s l) t.1 t.2.1 t.2.2).1 := by
  unfold ingestAll
  rw [List.foldl_append]
  rfl

/-- Unfolding the ancestor accumulation on the last sequence element. -/
theorem ancFold_append (l : List (Nat × Nat × Nat)) (t : Nat × Nat × Nat) :
    (l ++ [t]).foldl ancStep ([], fun _ => ∅) =
      ancStep (l.foldl ancStep ([], fun _ => ∅)) t := by
  rw [List.foldl_append]
  rfl

/-- Unfolding `firstMids` on the last sequence element. -/
theorem firstMids_append (l : List (Nat × Nat × Nat)) (t : Nat × Nat × Nat) :
    firstMids (l ++ [t]) =
      if t.1 ∈ firstMids l then firstMids l else firstMids l ++ [t.1] := by
  unfold firstMids
  rw [List.foldl_append]
  rfl

/-- `firstMids` has the same members as the projection to mids. -/
theorem mem_firstMids (seq : List (Nat × Nat × Nat)) (x : Nat) :
    x ∈ firstMids seq ↔ x ∈ seq.map fun t => t.1 := by
  induction seq using List.reverseRecOn with
  | nil => simp [firstMids]
  | append_singleton l t ih =>
    rw [firstMids_append]
    by_cases h : t.1 ∈ firstMids l
    · rw [if_pos h]
      simp only [List.map_append, List.map_cons, List.map_nil,
        List.mem_append, List.mem_singleton]
      constructor
      · exact fun hx => Or.inl (ih.mp hx)
      · rintro (hx | rfl)
        · exact ih.mpr hx
        · exact h
    · rw [if_neg h]
      simp only [List.mem_append, List.mem_singleton, List.map_append,
        List.map_cons, List.map_nil, ih]

/-- `firstMids` never records an id twice. -/
theorem firstMids_nodup (seq : List (Nat × Nat × Nat)) :
    (firstMids seq).Nodup := by
  induction seq using List.reverseRecOn with
  | nil => simp [firstMids]
  | append_singleton l t ih =>
    rw [firstMids_append]
    by_cases h : t.1 ∈ firstMids l
    · rw [if_pos h]
      exact ih
    · rw [if_neg h]
      rw [List.nodup_append]
      exact ⟨ih, List.nodup_singleton _, by simpa using fun hx => h hx⟩

/-- A parent set is only non-empty for recorded mids. -/
theorem mem_of_parentsOf_ne (seq : List (Nat × Nat × Nat)) (x y : Nat)
    (h : y ∈ parentsOf seq x) : x ∈ seq.map fun t => t.1 := by
  unfold parentsOf at h
  cases hf : seq.find? (fun t => t.1 == x) with
  | none => rw [hf] at h; cases h
  | some u =>
    have hm := List.mem_of_find?_eq_some hf
    have hp := List.find?_some hf
    have : u.1 = x := by simpa using hp
    subst this
    exact List.mem_map_of_mem _ hm

/-- The parents come from the first triple of the sequence whose mid is
the child. -/
theorem parentsOf_mem_triple (seq : List (Nat × Nat × Nat)) (x y : Nat)
    (h : y ∈ parentsOf seq x) :
    ∃ u ∈ seq, u.1 = x ∧ (y = u.2.1 ∨ y = u.2.2) := by
  unfold parentsOf at h
  cases hf : seq.find? (fun t => t.1 == x) with
  | none => rw [hf] at h; cases h
  | some u =>
    rw [hf] at h
    have hm := List.mem_of_find?_eq_some hf
    have hp : u.1 = x := by simpa using List.find?_some hf
    refine ⟨u, hm, hp, ?_⟩
    rcases Finset.mem_insert.mp h with h | h
    · exact Or.inl h
    · exact Or.inr (Finset.mem_singleton.mp h)

/-- Appending triples does not change the parents of already recorded
mids. -/
theorem parentsOf_append_of_mem (l l2 : List (Nat × Nat × Nat)) (x : Nat)
    (h : x ∈ l.map fun t => t.1) :
    parentsOf (l ++ l2) x = parentsOf l x := by
  unfold parentsOf
  obtain ⟨u, hu, hux⟩ := List.mem_map.mp h
  have : ∃ v, l.find? (fun t => t.1 == x) = some v := by
    rw [← Option.isSome_iff_exists, List.find?_isSome]
    exact ⟨u, hu, by simpa using hux⟩
  obtain ⟨v, hv⟩ := this
  rw [List.find?_append, hv]
  rfl

/-- An id recorded nowhere has no parents. -/
theorem parentsOf_eq_empty (l : List (Nat × Nat × Nat)) (x : Nat)
    (h : x ∉ l.map fun t => t.1) : parentsOf l x = ∅ := by
  unfold parentsOf
  have : l.find? (fun t => t.1 == x) = none := by
    rw [List.find?_eq_none]
    intro u hu
    simp only [beq_iff_eq]
    intro hux
    exact h (List.mem_map.mpr ⟨u, hu, hux⟩)
  rw [this]

/-- The parents of a freshly appended mid are the two parents of its
triple. -/
theorem parentsOf_append_self (l : List (Nat × Nat × Nat))
    (t : Nat × Nat × Nat) (h : t.1 ∉ l.map fun u => u.1) :
    parentsOf (l ++ [t]) t.1 = {t.2.1, t.2.2} := by
  unfold parentsOf
  have h1 : l.find? (fun u => u.1 == t.1) = none := by
    rw [List.find?_eq_none]
    intro u hu
    simp only [beq_iff_eq]
    intro hux
    exact h (List.mem_map.mpr ⟨u, hu, hux⟩)
  rw [List.find?_append, h1]
  simp [List.find?]

/-- Appending a duplicate triple changes no parent set. -/
theorem parentsOf_append_dup (l : List (Nat × Nat × Nat))
    (t : Nat × Nat × Nat) (h : t.1 ∈ l.map fun u => u.1) (x : Nat) :
    parentsOf (l ++ [t]) x = parentsOf l x := by
  by_cases hx : x ∈ l.map fun u => u.1
  · exact parentsOf_append_of_mem l [t] x hx
  · rw [parentsOf_eq_empty l x hx, parentsOf_eq_empty]
    simp only [List.map_append, List.map_cons, List.map_nil,
      List.mem_append, List.mem_singleton]
    rintro (hc | hc)
    · exact hx hc
    · subst hc
      exact hx h

/-- Appending a fresh triple changes no other mid's parent set. -/
theorem parentsOf_append_fresh_other (l : List (Nat × Nat × Nat))
    (t : Nat × Nat × Nat) (x : Nat) (hx : x ≠ t.1) :
    parentsOf (l ++ [t]) x = parentsOf l x := by
  by_cases hm : x ∈ l.map fun u => u.1
  · exact parentsOf_append_of_mem l [t] x hm
  · rw [parentsOf_eq_empty l x hm, parentsOf_eq_empty]
    simp only [List.map_append, List.map_cons, List.map_nil,
      List.mem_append, List.mem_singleton]
    rintro (hc | hc)
    · exact hm hc
    · exact hx hc

/-- A prefix of a solidification-ordered sequence is solidification
ordered. -/
theorem solidOrder_append_left (l : List (Nat × Nat × Nat))
    (t : Nat × Nat × Nat) (hs : SolidOrder (l ++ [t])) : SolidOrder l := by
  intro i hi p hp hdrop
  have hi2 : i < (l ++ [t]).length := by
    simp only [List.length_append, List.length_singleton]
    omega
  have hle : i ≤ l.length := Nat.le_of_lt hi
  have hgd : (l ++ [t]).getD i (0, 0, 0) = l.getD i (0, 0, 0) := by
    rw [List.getD_eq_getElem _ _ hi2, List.getD_eq_getElem _ _ hi]
    exact List.getElem_append_left hi
  have hp2 : p ∈ [((l ++ [t]).getD i (0, 0, 0)).2.1,
      ((l ++ [t]).getD i (0, 0, 0)).2.2] := by
    rw [hgd]
    exact hp
  have hdrop2 : p ∈ ((l ++ [t]).drop i).map fun v => v.1 := by
    rw [List.drop_append_of_le_length hle, List.map_append]
    exact List.mem_append_left _ hdrop
  have := hs i hi2 p hp2 hdrop2
  rwa [List.take_append_of_le_length hle] at this

/-- In a solidification-ordered sequence, a mid that is recorded for the
first time by the last triple is not a parent of any triple. -/
theorem solidOrder_fresh_not_parent (l : List (Nat × Nat × Nat))
    (t : Nat × Nat × Nat) (hs : SolidOrder (l ++ [t]))
    (hf : t.1 ∉ l.map fun u => u.1) :
    ∀ u ∈ l ++ [t], t.1 ≠ u.2.1 ∧ t.1 ≠ u.2.2 := by
  intro u hu
  obtain ⟨i, hi, hgi⟩ := List.mem_iff_getElem.mp hu
  have hgd : (l ++ [t]).getD i (0, 0, 0) = u := by
    rw [List.getD_eq_getElem _ _ hi]
    exact hgi
  have hle : i ≤ l.length := by
    simp only [List.length_append, List.length_singleton] at hi
    omega
  have key : ∀ p, p ∈ [u.2.1, u.2.2] → t.1 ≠ p := by
    intro p hp hpt
    subst hpt
    have hp2 : t.1 ∈ [((l ++ [t]).getD i (0, 0, 0)).2.1,
        ((l ++ [t]).getD i (0, 0, 0)).2.2] := by
      rw [hgd]
      exact hp
    have hdrop : t.1 ∈ ((l ++ [t]).drop i).map fun v => v.1 := by
      rw [List.drop_append_of_le_length hle, List.map_append]
      refine List.mem_append_right _ ?_
      simp
    have htake := hs i hi t.1 hp2 hdrop
    rw [List.take_append_of_le_length hle] at htake
    exact hf (List.map_subset _ (List.take_subset i l) htake)
  exact ⟨key u.2.1 (by simp), key u.2.2 (by simp)⟩

/-- In a solidification-ordered sequence, no parent edge points to a mid
first recorded by the last triple. -/
theorem no_edge_into_fresh (l : List (Nat × Nat × Nat))
    (t : Nat × Nat × Nat) (hs : SolidOrder (l ++ [t]))
    (hf : t.1 ∉ l.map fun u => u.1) :
    ∀ y, t.1 ∉ parentsOf (l ++ [t]) y := by
  intro y hy
  obtain ⟨u, hu, _, hpar⟩ := parentsOf_mem_triple _ _ _ hy
  have := solidOrder_fresh_not_parent l t hs hf u hu
  rcases hpar with h | h
  · exact this.1 h
  · exact this.2 h

/-- Ancestor chains of the prefix lift to the extended sequence. -/
theorem ancRel_append_of_ancRel (l l2 : List (Nat × Nat × Nat)) (x z : Nat)
    (h : AncRel l x z) : AncRel (l ++ l2) x z := by
  unfold AncRel at h ⊢
  refine Relation.TransGen.mono ?_ h
  intro u v huv
  have hmem : u ∈ l.map fun w => w.1 := mem_of_parentsOf_ne l u v huv
  rwa [parentsOf_append_of_mem l l2 u hmem]

/-- Ancestor chains of the extended sequence that do not start at the
freshly recorded mid are chains of the prefix and avoid the fresh mid. -/
theorem ancRel_append_fresh_inv (l : List (Nat × Nat × Nat))
    (t : Nat × Nat × Nat) (hs : SolidOrder (l ++ [t]))
    (hf : t.1 ∉ l.map fun u => u.1) :
    ∀ x z, AncRel (l ++ [t]) x z → x ≠ t.1 → AncRel l x z ∧ z ≠ t.1 := by
  intro x z h
  unfold AncRel at h
  induction h with
  | single huv =>
    intro hx
    rename_i v
    have hxl : x ∈ l.map fun w => w.1 := by
      have hxm := mem_of_parentsOf_ne _ _ _ huv
      simp only [List.map_append, List.map_cons, List.map_nil,
        List.mem_append, List.mem_singleton] at hxm
      rcases hxm with h | h
      · exact h
      · exact absurd h hx
    have hedge : v ∈ parentsOf l x := by
      rwa [← parentsOf_append_of_mem l [t] x hxl]
    have hvm : v ≠ t.1 := by
      intro hvt
      subst hvt
      exact no_edge_into_fresh l t hs hf x huv
    exact ⟨Relation.TransGen.single hedge, hvm⟩
  | tail hxb hbc ih =>
    intro hx
    rename_i b v
    obtain ⟨h1, hbm⟩ := ih hx
    have hbl : b ∈ l.map fun w => w.1 := by
      have hbmem := mem_of_parentsOf_ne _ _ _ hbc
      simp only [List.map_append, List.map_cons, List.map_nil,
        List.mem_append, List.mem_singleton] at hbmem
      rcases hbmem with h | h
      · exact h
      · exact absurd h hbm
    have hedge : v ∈ parentsOf l b := by
      rwa [← parentsOf_append_of_mem l [t] b hbl]
    have hvm : v ≠ t.1 := by
      intro hvt
      subst hvt
      exact no_edge_into_fresh l t hs hf b hbc
    exact ⟨h1.tail hedge, hvm⟩

/-- Characterisation of a fresh (non-duplicate) `OnNewSolidMessage`. -/
theorem OnNewSolidMessage_fresh (s : HeaviestSelector) (mid p1 p2 : Nat)
    (h : mid ∉ s.trackedMessages) :
    (OnNewSolidMessage s mid p1 p2).1.trackedMessages =
        s.trackedMessages ++ [mid] ∧
      (OnNewSolidMessage s mid p1 p2).1.refs = (fun m =>
        if m = mid then
          ({s.trackedMessages.length} : Finset Nat)
            ∪ (if p1 ∈ s.trackedMessages then s.refs p1 else ∅)
            ∪ (if p2 ∈ s.trackedMessages then s.refs p2 else ∅)
        else s.refs m) ∧
      (OnNewSolidMessage s mid p1 p2).1.tips =
        removeTip (removeTip s.tips
            (if p1 ∈ s.trackedMessages then some p1 else none))
          (if p2 ∈ s.trackedMessages then some p2 else none) ++ [mid] := by
  unfold OnNewSolidMessage
  rw [if_neg h]
  refine ⟨rfl, ?_, rfl⟩
  funext x
  by_cases h1 : p1 ∈ s.trackedMessages <;>
    by_cases h2 : p2 ∈ s.trackedMessages <;>
    simp [h1, h2]

/-- `removeTip` acts as filtering the parent out, both when the parent is
tracked (erase on a duplicate-free list) and when it is not (the parent
then cannot be a tip). -/
theorem removeTip_filter (L : List Nat) (hnd : L.Nodup) (p : Nat)
    (item : Option Nat)
    (hit : item = some p ∨ (item = none ∧ p ∉ L)) :
    removeTip L item = L.filter fun y => y != p := by
  rcases hit with rfl | ⟨rfl, hp⟩
  · show L.erase p = _
    exact hnd.erase_eq_filter p
  · show L = _
    refine (List.filter_eq_self.mpr ?_).symm
    intro y hy
    simp only [bne_iff_ne, ne_eq]
    intro hyp
    subst hyp
    exact hp hy

/-- Congruence for `List.any` under a pointwise-equal predicate. -/
theorem list_any_congr {α : Type} {l : List α} {f g : α → Bool}
    (h : ∀ x ∈ l, f x = g x) : l.any f = l.any g := by
  induction l with
  | nil => rfl
  | cons x xs ih =>
    simp only [List.any_cons]
    rw [h x (List.mem_cons_self x xs), ih fun y hy => h y (List.mem_cons_of_mem x hy)]

/-- `ancStep` on an already recorded mid. -/
theorem ancStep_dup (st : List Nat × (Nat → Finset Nat)) (t : Nat × Nat × Nat)
    (h : t.1 ∈ st.1) : ancStep st t = st := by
  unfold ancStep
  rw [if_pos h]

/-- `ancStep` on a fresh mid. -/
theorem ancStep_fresh (st : List Nat × (Nat → Finset Nat))
    (t : Nat × Nat × Nat) (h : t.1 ∉ st.1) :
    ancStep st t =
      (st.1 ++ [t.1], fun x =>
        if x = t.1 then
          (if t.2.1 ∈ st.1 then insert t.2.1 (st.2 t.2.1) else ∅)
            ∪ (if t.2.2 ∈ st.1 then insert t.2.2 (st.2 t.2.2) else ∅)
        else st.2 x) := by
  unfold ancStep
  rw [if_neg h]

/-- Ingesting a duplicate triple preserves the joint invariant. -/
theorem ingestInv_append_dup (a b c : Int) (l : List (Nat × Nat × Nat))
    (t : Nat × Nat × Nat) (hdup : t.1 ∈ firstMids l)
    (inv : IngestInv a b c l) : IngestInv a b c (l ++ [t]) := by
  have hmap : t.1 ∈ l.map fun u => u.1 := (mem_firstMids l t.1).mp hdup
  have hFM : firstMids (l ++ [t]) = firstMids l := by
    rw [firstMids_append, if_pos hdup]
  have htr : ingestAll (New a b c) (l ++ [t]) = ingestAll (New a b c) l := by
    rw [ingestAll_append]
    have hd2 : t.1 ∈ (ingestAll (New a b c) l).trackedMessages := by
      rw [inv.tracked_eq]
      exact hdup
    unfold OnNewSolidMessage
    rw [if_pos hd2]
  have hancfold : (l ++ [t]).foldl ancStep ([], fun _ => ∅) =
      l.foldl ancStep ([], fun _ => ∅) := by
    rw [ancFold_append]
    have hd3 : t.1 ∈ (l.foldl ancStep ([], fun _ => ∅)).1 := by
      rw [inv.ancFst_eq]
      exact hdup
    rw [ancStep_dup _ _ hd3]
  have hancs : ∀ x, trackedAncestors (l ++ [t]) x = trackedAncestors l x := by
    intro x
    show ((l ++ [t]).foldl ancStep ([], fun _ => ∅)).2 x = _
    rw [hancfold]
    rfl
  have hparF : parentsOf (l ++ [t]) = parentsOf l :=
    funext (parentsOf_append_dup l t hmap)
  have hAnc : ∀ x z, AncRel (l ++ [t]) x z ↔ AncRel l x z := by
    intro x z
    unfold AncRel
    rw [hparF]
  exact {
    tracked_eq := by rw [htr, hFM]; exact inv.tracked_eq
    ancFst_eq := by rw [hancfold, hFM]; exact inv.ancFst_eq
    nodup := firstMids_nodup _
    anc_empty := by
      intro x hx
      rw [hFM] at hx
      rw [hancs]
      exact inv.anc_empty x hx
    anc_sub := by
      intro x hx z hz
      rw [hFM] at hx ⊢
      rw [hancs] at hz
      exact inv.anc_sub x hx z hz
    anc_self := by
      intro x hx
      rw [hFM] at hx
      rw [hancs]
      exact inv.anc_self x hx
    refs_eq := by
      intro x hx
      rw [hFM] at hx
      rw [htr, hancs, hFM]
      exact inv.refs_eq x hx
    tips_eq := by
      rw [htr, hFM, hparF]
      exact inv.tips_eq
    bridge := by
      intro x hx z
      rw [hFM] at hx
      rw [hancs, hFM]
      simp only [hAnc]
      exact inv.bridge x hx z }

/-- The ancestor accumulator after a fresh triple: the new mid maps to
its tracked parents together with their ancestors; other mids are
unchanged. -/
theorem trackedAncestors_append_fresh (l : List (Nat × Nat × Nat))
    (t : Nat × Nat × Nat)
    (hfst : t.1 ∉ (l.foldl ancStep ([], fun _ => ∅)).1) (x : Nat) :
    trackedAncestors (l ++ [t]) x =
      if x = t.1 then
        (if t.2.1 ∈ (l.foldl ancStep ([], fun _ => ∅)).1 then
          insert t.2.1 (trackedAncestors l t.2.1) else ∅)
          ∪ (if t.2.2 ∈ (l.foldl ancStep ([], fun _ => ∅)).1 then
            insert t.2.2 (trackedAncestors l t.2.2) else ∅)
      else trackedAncestors l x := by
  show ((l ++ [t]).foldl ancStep ([], fun _ => ∅)).2 x = _
  rw [ancFold_append, ancStep_fresh _ _ hfst]
  rfl

/-- Ingesting a fresh triple in solidification order preserves the joint
invariant. -/
theorem ingestInv_append_fresh (a b c : Int) (l : List (Nat × Nat × Nat))
    (t : Nat × Nat × Nat) (hs : SolidOrder (l ++ [t]))
    (hfm : t.1 ∉ firstMids l) (inv : IngestInv a b c l) :
    IngestInv a b c (l ++ [t]) := by
  have hmap : t.1 ∉ l.map fun u => u.1 :=
    fun h => hfm ((mem_firstMids l t.1).mpr h)
  have hFM : firstMids (l ++ [t]) = firstMids l ++ [t.1] := by
    rw [firstMids_append, if_neg hfm]
  have hmtr : t.1 ∉ (ingestAll (New a b c) l).trackedMessages := by
    rw [inv.tracked_eq]
    exact hfm
  obtain ⟨htr, hrefs, htips⟩ :=
    OnNewSolidMessage_fresh (ingestAll (New a b c) l) t.1 t.2.1 t.2.2 hmtr
  have hstep : ingestAll (New a b c) (l ++ [t]) =
      (OnNewSolidMessage (ingestAll (New a b c) l) t.1 t.2.1 t.2.2).1 :=
    ingestAll_append _ l t
  have hfst : t.1 ∉ (l.foldl ancStep ([], fun _ => ∅)).1 := by
    rw [inv.ancFst_eq]
    exact hfm
  have hanc : ∀ x, trackedAncestors (l ++ [t]) x =
      if x = t.1 then
        (if t.2.1 ∈ firstMids l then
          insert t.2.1 (trackedAncestors l t.2.1) else ∅)
          ∪ (if t.2.2 ∈ firstMids l then
            insert t.2.2 (trackedAncestors l t.2.2) else ∅)
      else trackedAncestors l x := by
    intro x
    rw [trackedAncestors_append_fresh l t hfst x, inv.ancFst_eq]
  have hpart_sub : ∀ p z,
      z ∈ (if p ∈ firstMids l then
        insert p (trackedAncestors l p) else ∅) → z ∈ firstMids l := by
    intro p z hz
    by_cases hp : p ∈ firstMids l
    · rw [if_pos hp] at hz
      rcases Finset.mem_insert.mp hz with h | h
      · exact h ▸ hp
      · exact inv.anc_sub p hp z h
    · rw [if_neg hp] at hz
      exact absurd hz (Finset.not_mem_empty z)
  have hA_sub : ∀ z,
      z ∈ (if t.2.1 ∈ firstMids l then
          insert t.2.1 (trackedAncestors l t.2.1) else ∅)
        ∪ (if t.2.2 ∈ firstMids l then
          insert t.2.2 (trackedAncestors l t.2.2) else ∅) →
      z ∈ firstMids l := by
    intro z hz
    rcases Finset.mem_union.mp hz with h | h
    · exact hpart_sub t.2.1 z h
    · exact hpart_sub t.2.2 z h
  have hparNew : parentsOf (l ++ [t]) t.1 = {t.2.1, t.2.2} :=
    parentsOf_append_self l t hmap
  have hself := solidOrder_fresh_not_parent l t hs hmap t
    (List.mem_append_right l (List.mem_singleton_self t))
  exact {
    tracked_eq := by rw [hstep, htr, inv.tracked_eq, hFM]
    ancFst_eq := by
      rw [ancFold_append, ancStep_fresh _ _ hfst]
      show (l.foldl ancStep ([], fun _ => ∅)).1 ++ [t.1] = _
      rw [inv.ancFst_eq, hFM]
    nodup := firstMids_nodup _
    anc_empty := by
      intro x hx
      rw [hFM] at hx
      simp only [List.mem_append, List.mem_singleton, not_or] at hx
      rw [hanc, if_neg hx.2]
      exact inv.anc_empty x hx.1
    anc_sub := by
      intro x hx z hz
      rw [hFM] at hx ⊢
      by_cases hxt : x = t.1
      · subst hxt
        rw [hanc, if_pos rfl] at hz
        exact List.mem_append_left _ (hA_sub z hz)
      · rw [hanc, if_neg hxt] at hz
        have hx2 : x ∈ firstMids l := by
          rcases List.mem_append.mp hx with h | h
          · exact h
          · simp only [List.mem_singleton] at h
            exact absurd h hxt
        exact List.mem_append_left _ (inv.anc_sub x hx2 z hz)
    anc_self := by
      intro x hx
      rw [hFM] at hx
      by_cases hxt : x = t.1
      · subst hxt
        rw [hanc, if_pos rfl]
        intro hmem
        exact hfm (hA_sub _ hmem)
      · rw [hanc, if_neg hxt]
        have hx2 : x ∈ firstMids l := by
          rcases List.mem_append.mp hx with h | h
          · exact h
          · simp only [List.mem_singleton] at h
            exact absurd h hxt
        exact inv.anc_self x hx2
    refs_eq := by
      intro x hx
      rw [hFM] at hx
      rw [hstep, hrefs, hFM]
      simp only []
      have hpos : ∀ y ∈ firstMids l,
          (firstMids l ++ [t.1]).indexOf y = (firstMids l).indexOf y :=
        fun y hy => List.indexOf_append_of_mem hy
      have hposT : (firstMids l ++ [t.1]).indexOf t.1 =
          (firstMids l).length := by
        rw [List.indexOf_append_of_not_mem hfm]
        simp
      have himg : ∀ p, p ∈ firstMids l →
          (insert p (trackedAncestors l p)).image
              (fun y => (firstMids l ++ [t.1]).indexOf y) =
            (ingestAll (New a b c) l).refs p := by
        intro p hp
        rw [inv.refs_eq p hp]
        apply Finset.image_congr
        intro z hz
        rcases Finset.mem_insert.mp hz with h | h
        · subst h
          exact hpos z hp
        · exact hpos z (inv.anc_sub p hp z h)
      by_cases hxt : x = t.1
      · subst hxt
        rw [if_pos rfl, inv.tracked_eq, hanc, if_pos rfl,
          Finset.image_insert, hposT, Finset.image_union]
        by_cases h1 : t.2.1 ∈ firstMids l <;>
          by_cases h2 : t.2.2 ∈ firstMids l <;>
          simp only [if_pos, if_neg, h1, h2, ite_true, ite_false,
            Finset.image_empty]
        · rw [himg _ h1, himg _ h2, Finset.insert_eq, Finset.union_assoc]
        · rw [himg _ h1, Finset.insert_eq, Finset.union_assoc]
        · rw [himg _ h2, Finset.insert_eq, Finset.union_assoc]
        · rw [Finset.insert_eq, Finset.union_assoc]
      · rw [if_neg hxt]
        have hx2 : x ∈ firstMids l := by
          rcases List.mem_append.mp hx with h | h
          · exact h
          · simp only [List.mem_singleton] at h
            exact absurd h hxt
        rw [hanc, if_neg hxt, inv.refs_eq x hx2]
        apply Finset.image_congr
        intro z hz
        rcases Finset.mem_insert.mp hz with h | h
        · subst h
          exact (hpos z hx2).symm
        · exact (hpos z (inv.anc_sub x hx2 z h)).symm
    tips_eq := by
      rw [hstep, htips, hFM, inv.tracked_eq, inv.tips_eq,
        List.filter_append]
      have hnoedge := no_edge_into_fresh l t hs hmap
      have hpar_old : ∀ ch ∈ firstMids l,
          parentsOf (l ++ [t]) ch = parentsOf l ch := by
        intro ch hch
        exact parentsOf_append_of_mem l [t] ch ((mem_firstMids l ch).mp hch)
      have hT : ([t.1] : List Nat).filter
          (fun m => !((firstMids l ++ [t.1]).any
            fun ch => decide (m ∈ parentsOf (l ++ [t]) ch))) = [t.1] := by
        apply List.filter_eq_self.mpr
        intro y hy
        simp only [List.mem_singleton] at hy
        subst hy
        rw [Bool.not_eq_true', List.any_eq_false]
        intro ch _ hdec
        exact hnoedge ch (of_decide_eq_true hdec)
      rw [hT]
      have hOldNodup : ((firstMids l).filter
          (fun m => !((firstMids l).any
            fun ch => decide (m ∈ parentsOf l ch)))).Nodup :=
        inv.nodup.filter _
      have hOldSub : ∀ y ∈ (firstMids l).filter
          (fun m => !((firstMids l).any
            fun ch => decide (m ∈ parentsOf l ch))), y ∈ firstMids l :=
        fun y hy => List.mem_of_mem_filter hy
      have h1 := removeTip_filter
        ((firstMids l).filter
          (fun m => !((firstMids l).any
            fun ch => decide (m ∈ parentsOf l ch))))
        hOldNodup t.2.1
        (if t.2.1 ∈ firstMids l then some t.2.1 else none)
        (by
          by_cases hp : t.2.1 ∈ firstMids l
          · rw [if_pos hp]
            exact Or.inl rfl
          · rw [if_neg hp]
            exact Or.inr ⟨rfl, fun hmem => hp (hOldSub _ hmem)⟩)
      rw [h1]
      have h2 := removeTip_filter
        (((firstMids l).filter
          (fun m => !((firstMids l).any
            fun ch => decide (m ∈ parentsOf l ch)))).filter
          (fun y => y != t.2.1))
        (hOldNodup.filter _) t.2.2
        (if t.2.2 ∈ firstMids l then some t.2.2 else none)
        (by
          by_cases hp : t.2.2 ∈ firstMids l
          · rw [if_pos hp]
            exact Or.inl rfl
          · rw [if_neg hp]
            exact Or.inr ⟨rfl, fun hmem =>
              hp (hOldSub _ (List.mem_of_mem_filter hmem))⟩)
      rw [h2, List.filter_filter, List.filter_filter]
      congr 1
      apply List.filter_congr
      intro y hy
      have hany : (firstMids l).any
          (fun ch => decide (y ∈ parentsOf (l ++ [t]) ch)) =
          (firstMids l).any (fun ch => decide (y ∈ parentsOf l ch)) := by
        apply list_any_congr
        intro ch hch
        rw [hpar_old ch hch]
      rw [List.any_append, hany]
      simp only [List.any_cons, List.any_nil, Bool.or_false, hparNew]
      by_cases hy1 : y = t.2.1
      · subst hy1
        simp
      · by_cases hy2 : y = t.2.2
        · subst hy2
          simp
        · have e1 : (y != t.2.1) = true := by simp [hy1]
          have e2 : (y != t.2.2) = true := by simp [hy2]
          have e3 : decide (y ∈ ({t.2.1, t.2.2} : Finset Nat)) = false := by
            simp [hy1, hy2]
          rw [e1, e2, e3]
          simp
    bridge := by
      intro x hx z
      rw [hFM] at hx ⊢
      by_cases hxt : x = t.1
      · subst hxt
        rw [hanc, if_pos rfl]
        constructor
        · intro hz
          refine ⟨List.mem_append_left _ (hA_sub z hz), ?_⟩
          have hedge : ∀ p, p ∈ ({t.2.1, t.2.2} : Finset Nat) →
              p ∈ parentsOf (l ++ [t]) t.1 := by
            intro p hp
            rw [hparNew]
            exact hp
          have hside : ∀ p, p ∈ ({t.2.1, t.2.2} : Finset Nat) →
              z ∈ (if p ∈ firstMids l then
                insert p (trackedAncestors l p) else ∅) →
              AncRel (l ++ [t]) t.1 z := by
            intro p hp hzp
            by_cases hpFM : p ∈ firstMids l
            · rw [if_pos hpFM] at hzp
              rcases Finset.mem_insert.mp hzp with h | h
              · subst h
                exact Relation.TransGen.single (hedge z hp)
              · have hrel : AncRel l p z :=
                  ((inv.bridge p hpFM z).mp h).2
                exact Relation.TransGen.head (hedge p hp)
                  (ancRel_append_of_ancRel l [t] p z hrel)
            · rw [if_neg hpFM] at hzp
              exact absurd hzp (Finset.not_mem_empty z)
          rcases Finset.mem_union.mp hz with h | h
          · exact hside t.2.1 (Finset.mem_insert_self _ _) h
          · exact hside t.2.2
              (Finset.mem_insert_of_mem (Finset.mem_singleton_self _)) h
        · rintro ⟨hzFM2, hrel⟩
          obtain ⟨p, hpedge, hrest⟩ := Relation.TransGen.head'_iff.mp hrel
          rw [hparNew] at hpedge
          have hp12 : p = t.2.1 ∨ p = t.2.2 := by
            rcases Finset.mem_insert.mp hpedge with h | h
            · exact Or.inl h
            · exact Or.inr (Finset.mem_singleton.mp h)
          have hpm : p ≠ t.1 := by
            intro hpt
            subst hpt
            rcases hp12 with h | h
            · exact hself.1 h
            · exact hself.2 h
          rcases Relation.reflTransGen_iff_eq_or_transGen.mp hrest with
            heq | htr2
          · rw [heq] at hzFM2 ⊢
            have hpFM : p ∈ firstMids l := by
              rcases List.mem_append.mp hzFM2 with h | h
              · exact h
              · simp only [List.mem_singleton] at h
                exact absurd h hpm
            rcases hp12 with rfl | rfl
            · exact Finset.mem_union_left _
                (by rw [if_pos hpFM]; exact Finset.mem_insert_self _ _)
            · exact Finset.mem_union_right _
                (by rw [if_pos hpFM]; exact Finset.mem_insert_self _ _)
          · by_cases hpFM : p ∈ firstMids l
            · obtain ⟨hrel_l, hznt⟩ :=
                ancRel_append_fresh_inv l t hs hmap p z htr2 hpm
              have hzFM : z ∈ firstMids l := by
                rcases List.mem_append.mp hzFM2 with h | h
                · exact h
                · simp only [List.mem_singleton] at h
                  exact absurd h hznt
              have hzanc : z ∈ trackedAncestors l p :=
                (inv.bridge p hpFM z).mpr ⟨hzFM, hrel_l⟩
              rcases hp12 with rfl | rfl
              · exact Finset.mem_union_left _
                  (by rw [if_pos hpFM]; exact Finset.mem_insert_of_mem hzanc)
              · exact Finset.mem_union_right _
                  (by rw [if_pos hpFM]; exact Finset.mem_insert_of_mem hzanc)
            · obtain ⟨q, hq, _⟩ := Relation.TransGen.head'_iff.mp htr2
              have hempty : parentsOf (l ++ [t]) p = ∅ := by
                rw [parentsOf_append_fresh_other l t p hpm]
                exact parentsOf_eq_empty l p
                  (fun hm => hpFM ((mem_firstMids l p).mpr hm))
              rw [hempty] at hq
              exact absurd hq (Finset.not_mem_empty q)
      · have hx2 : x ∈ firstMids l := by
          rcases List.mem_append.mp hx with h | h
          · exact h
          · simp only [List.mem_singleton] at h
            exact absurd h hxt
        rw [hanc, if_neg hxt]
        constructor
        · intro hz
          obtain ⟨hzFM, hrel⟩ := (inv.bridge x hx2 z).mp hz
          exact ⟨List.mem_append_left _ hzFM,
            ancRel_append_of_ancRel l [t] x z hrel⟩
        · rintro ⟨hzFM2, hrel⟩
          obtain ⟨hrel_l, hznt⟩ :=
            ancRel_append_fresh_inv l t hs hmap x z hrel hxt
          have hzFM : z ∈ firstMids l := by
            rcases List.mem_append.mp hzFM2 with h | h
            · exact h
            · simp only [List.mem_singleton] at h
              exact absurd h hznt
          exact (inv.bridge x hx2 z).mpr ⟨hzFM, hrel_l⟩ }

/-- The joint invariant holds after ingesting any solidification-ordered
sequence into a fresh selector. -/
theorem ingest_invariant (a b c : Int) (seq : List (Nat × Nat × Nat))
    (hs : SolidOrder seq) : IngestInv a b c seq := by
  revert hs
  induction seq using List.reverseRecOn with
  | nil =>
    intro _
    exact {
      tracked_eq := rfl
      ancFst_eq := rfl
      nodup := firstMids_nodup _
      anc_empty := fun _ _ => rfl
      anc_sub := fun m hm => absurd hm (List.not_mem_nil m)
      anc_self := fun m hm => absurd hm (List.not_mem_nil m)
      refs_eq := fun m hm => absurd hm (List.not_mem_nil m)
      tips_eq := rfl
      bridge := fun m hm => absurd hm (List.not_mem_nil m) }
  | append_singleton l t ih =>
    intro hs
    have hsl := solidOrder_append_left l t hs
    by_cases hdup : t.1 ∈ firstMids l
    · exact ingestInv_append_dup a b c l t hdup (ih hsl)
    · exact ingestInv_append_fresh a b c l t hs hdup (ih hsl)

/-! ## Claim C3: bitset cardinality counts tracked ancestors -/

/-- C3: after any sequence of ingest calls in solidification order (with
no intervening selection), every tracked message's `refs` bitset has
cardinality one (its own bit) plus the number of its tracked ancestors;
moreover the recorded tracked-ancestor set is exactly the set of tracked
ids reachable along parent edges (`AncRel`). -/
theorem c3_refs_card_ancestors (a b c : Int) (seq : List (Nat × Nat × Nat))
    (hs : SolidOrder seq) :
    ∀ m ∈ (ingestAll (New a b c) seq).trackedMessages,
      ((ingestAll (New a b c) seq).refs m).card =
        1 + (trackedAncestors seq m).card ∧
      ∀ x, x ∈ trackedAncestors seq m ↔
        (x ∈ (ingestAll (New a b c) seq).trackedMessages ∧
          AncRel seq m x) := by
  intro m hm
  have inv := ingest_invariant a b c seq hs
  have hm2 : m ∈ firstMids seq := by
    rw [← inv.tracked_eq]
    exact hm
  constructor
  · rw [inv.refs_eq m hm2]
    rw [Finset.card_image_of_injOn ?inj]
    case inj =>
      intro x hx y hy hxy
      simp only [Finset.coe_insert, Set.mem_insert_iff, Finset.mem_coe]
        at hx hy
      have hxFM : x ∈ firstMids seq := by
        rcases hx with rfl | hx
        · exact hm2
        · exact inv.anc_sub m hm2 x hx
      have hyFM : y ∈ firstMids seq := by
        rcases hy with rfl | hy
        · exact hm2
        · exact inv.anc_sub m hm2 y hy
      have hxl : (firstMids seq).indexOf x < (firstMids seq).length :=
        List.indexOf_lt_length.mpr hxFM
      have hyl : (firstMids seq).indexOf y < (firstMids seq).length :=
        List.indexOf_lt_length.mpr hyFM
      have := List.indexOf_get hxl
      rw [← this, ← List.indexOf_get hyl]
      exact congrArg _ (Fin.ext hxy)
    · rw [Finset.card_insert_of_not_mem (inv.anc_self m hm2)]
      exact Nat.add_comm _ 1
  · intro x
    rw [inv.tracked_eq]
    exact inv.bridge m hm2 x

/-- C3, witness: in the chain 0 ← 1 ← 2 the tracked message 2 has
`refs.card = 3 = 1 + 2` tracked ancestors, and 0 is one of them. -/
theorem c3_refs_card_ancestors_witness :
    SolidOrder chainSeq ∧
      2 ∈ (ingestAll (New 0 2 0) chainSeq).trackedMessages ∧
      ((ingestAll (New 0 2 0) chainSeq).refs 2).card =
        1 + (trackedAncestors chainSeq 2).card ∧
      (0 ∈ trackedAncestors chainSeq 2 ↔
        (0 ∈ (ingestAll (New 0 2 0) chainSeq).trackedMessages ∧
          AncRel chainSeq 2 0)) := by
  have hs : SolidOrder chainSeq := by decide
  have hm : 2 ∈ (ingestAll (New 0 2 0) chainSeq).trackedMessages := by
    decide
  have h := c3_refs_card_ancestors 0 2 0 chainSeq hs 2 hm
  exact ⟨hs, hm, h.1, h.2 0⟩

/-! ## Claim C9: the tips list invariant -/

/-- C9: after every solidification-ordered ingest sequence the tips list
is exactly the insertion-ordered sublist of tracked messages that are not
a parent of any tracked message; and operationally each fresh ingest
removes each tracked parent from the tips list (untracked parents are
skipped by the nil check) and appends the new message at the back. -/
theorem c9_tips_exactly_childless (a b c : Int)
    (seq : List (Nat × Nat × Nat)) (hs : SolidOrder seq) :
    ((ingestAll (New a b c) seq).tips =
      (ingestAll (New a b c) seq).trackedMessages.filter
        (fun m => !((ingestAll (New a b c) seq).trackedMessages.any
          fun ch => decide (m ∈ parentsOf seq ch)))) ∧
    ∀ s mid p1 p2, mid ∉ s.trackedMessages →
      (OnNewSolidMessage s mid p1 p2).1.tips =
        removeTip (removeTip s.tips
            (if p1 ∈ s.trackedMessages then some p1 else none))
          (if p2 ∈ s.trackedMessages then some p2 else none) ++ [mid] := by
  constructor
  · have inv := ingest_invariant a b c seq hs
    rw [inv.tracked_eq, inv.tips_eq]
  · intro s mid p1 p2 hmid
    exact (OnNewSolidMessage_fresh s mid p1 p2 hmid).2.2

/-- C9, witness: for the chain 0 ← 1 ← 2 the tips list is [2], the only
tracked message without a tracked child. -/
theorem c9_tips_exactly_childless_witness :
    SolidOrder chainSeq ∧
      (ingestAll (New 0 2 0) chainSeq).tips =
        (ingestAll (New 0 2 0) chainSeq).trackedMessages.filter
          (fun m => !((ingestAll (New 0 2 0) chainSeq).trackedMessages.any
            fun ch => decide (m ∈ parentsOf chainSeq ch))) := by
  have hs : SolidOrder chainSeq := by decide
  exact ⟨hs, (c9_tips_exactly_childless 0 2 0 chainSeq hs).1⟩

end Mselection
